import Mathlib

/-!
Shallow embedding of `src/codeflare/pipelines/Datamodel.py`.

The Python module defines a DAG of computation nodes (`Node`,
`EstimatorNode`, `AndNode`), directed `Edge`s, and a `Pipeline` holding
predecessor/successor adjacency dictionaries together with a memoized
longest-path leveling algorithm (`compute_node_level`,
`compute_node_levels`, `compute_max_level`, `get_nodes_by_level`) and
edge queries (`get_pre_edges`, `get_post_edges`, `is_terminal`).

Modelling conventions:
* Python dictionaries (which preserve insertion order and have unique
  keys) are modelled as association lists `List (Node × α)`; lookup takes
  the first matching key, assignment updates an existing key in place and
  otherwise appends.
* `uuid.uuid4()` is modelled by threading an explicit freshly allocated
  natural-number identifier: the property of `uuid4` used by the code is
  that a newly generated identifier differs from every previously
  generated one.
* The recursion of `compute_node_level` is not structurally terminating
  (on a cyclic graph the Python code does not terminate), so it is
  embedded with an explicit fuel parameter; exhausting the fuel — and a
  Python `KeyError` — yield `none`.
* Python truthiness tests on the caches (`if self.__node_levels__:`)
  treat both `None` and an empty dict/list as false; `truthyCache` models
  this exactly.
-/

namespace Datamodel

/-- The concrete Python class of a node object (`EstimatorNode` or
`AndNode`); `Node.__eq__` compares the classes first. -/
inductive NodeKind where
  | estimator
  | andNode
deriving DecidableEq

/-- Python enum `NodeInputType`. -/
inductive NodeInputType where
  | OR
  | AND
deriving DecidableEq

/-- Python enum `NodeFiringType`. -/
inductive NodeFiringType where
  | ANY
  | ALL
deriving DecidableEq

/-- Python enum `NodeStateType`. -/
inductive NodeStateType where
  | STATELESS
  | IMMUTABLE
  | MUTABLE_SEQUENTIAL
  | MUTABLE_AGGREGATE
deriving DecidableEq

/-- The identity data of a Python `Node` object: the fields consulted by
`Node.__eq__` (class, `__id__`, `__node_name__`) and by `Node.__hash__`
(`__id__`).  The input/firing/state enums are fully determined by the
concrete class (see `Node.node_input_type` below) and are not part of
equality, so they are derived rather than stored. -/
structure Node where
  kind : NodeKind
  name : String
  id : Nat
deriving DecidableEq

/-- `get_node_input_type`: `EstimatorNode.__init__` passes `OR`,
`AndNode.__init__` passes `AND`. -/
def Node.node_input_type : Node → NodeInputType
  | n => match n.kind with
    | NodeKind.estimator => NodeInputType.OR
    | NodeKind.andNode => NodeInputType.AND

/-- `get_node_firing_type`: both concrete classes pass `ANY`. -/
def Node.node_firing_type : Node → NodeFiringType
  | _ => NodeFiringType.ANY

/-- `get_node_state_type`: `EstimatorNode.__init__` passes `IMMUTABLE`,
`AndNode.__init__` passes `STATELESS`. -/
def Node.node_state_type : Node → NodeStateType
  | n => match n.kind with
    | NodeKind.estimator => NodeStateType.IMMUTABLE
    | NodeKind.andNode => NodeStateType.STATELESS

/-- Model of an arbitrary Python object passed as the capability of a
node (the `estimator` of an `EstimatorNode`, the `and_func` of an
`AndNode`).  The flags record whether the object actually provides the
methods of the fit/transform contract resp. the multi-input transform
contract; `params` models the tunable parameters that
`sklearn.base.clone` copies into an independent estimator object. -/
structure Capability where
  hasFit : Bool
  hasTransform : Bool
  hasMultiTransform : Bool
  params : Nat
deriving DecidableEq

/-- Whether a capability object satisfies the `fit`/`transform` contract
required of the estimator of an `EstimatorNode`. -/
def hasFitTransformContract (c : Capability) : Bool :=
  c.hasFit && c.hasTransform

/-- Whether a capability object satisfies the multi-input transform
contract (`transform(xy_list: list) -> Xy`) required of the `and_func`
of an `AndNode`. -/
def hasMultiTransformContract (c : Capability) : Bool :=
  c.hasMultiTransform

/-- A Python `EstimatorNode` object: its `Node` identity part plus the
stored `__estimator__` capability. -/
structure EstimatorNode where
  node : Node
  estimator : Capability
deriving DecidableEq

/-- `EstimatorNode.__init__`, which calls `Node.__init__` (allocating a
fresh uuid, modelled by `freshId`) and stores the estimator.  The body
performs no validation of the estimator and contains no `raise`, so as a
fallible Python call it always returns normally; `Except` makes the
absence of a construction-time failure statable. -/
def EstimatorNode.make (node_name : String) (estimator : Capability)
    (freshId : Nat) : Except String EstimatorNode :=
  Except.ok { node := { kind := NodeKind.estimator, name := node_name, id := freshId },
              estimator := estimator }

/-- `EstimatorNode.clone`: `base.clone` produces an independent copy of
the estimator's parameters, and the `EstimatorNode` constructor is
called, which allocates a fresh uuid (`freshId`). -/
def EstimatorNode.clone (e : EstimatorNode) (freshId : Nat) : EstimatorNode :=
  { node := { kind := NodeKind.estimator, name := e.node.name, id := freshId },
    estimator := { hasFit := e.estimator.hasFit,
                   hasTransform := e.estimator.hasTransform,
                   hasMultiTransform := e.estimator.hasMultiTransform,
                   params := e.estimator.params } }

/-- A Python `AndNode` object: its `Node` identity part plus the stored
`__andfunc__` capability. -/
structure AndNode where
  node : Node
  and_func : Capability
deriving DecidableEq

/-- `AndNode.__init__`: as with `EstimatorNode.make`, no validation of
the capability occurs and the constructor cannot raise. -/
def AndNode.make (node_name : String) (and_func : Capability)
    (freshId : Nat) : Except String AndNode :=
  Except.ok { node := { kind := NodeKind.andNode, name := node_name, id := freshId },
              and_func := and_func }

/-- `AndNode.clone`: shares `__andfunc__` (no copy) but calls the
constructor, hence allocates a fresh uuid. -/
def AndNode.clone (a : AndNode) (freshId : Nat) : AndNode :=
  { node := { kind := NodeKind.andNode, name := a.node.name, id := freshId },
    and_func := a.and_func }

/-- A Python `Edge`: ordered pair of endpoints, either of which may be
`None` (the sentinel for a pipeline boundary). -/
structure Edge where
  from_node : Option Node
  to_node : Option Node
deriving DecidableEq

/-- An insertion-ordered Python dict keyed by nodes. -/
abbrev NodeDict (α : Type) := List (Node × α)

/-- Adjacency dict type of `__pre_graph__` / `__post_graph__`. -/
abbrev Graph := NodeDict (List Node)

/-- Level dict type (`result` in `compute_node_levels`). -/
abbrev Memo := NodeDict Nat

/-- Dict lookup `d[k]` (first matching key; `none` models `KeyError`). -/
def lookupD {α : Type} : NodeDict α → Node → Option α
  | [], _ => none
  | (k, v) :: rest, n => if k = n then some v else lookupD rest n

/-- Dict membership test `k in d.keys()`. -/
def containsKey {α : Type} (d : NodeDict α) (k : Node) : Bool :=
  (lookupD d k).isSome

/-- `d.keys()` in insertion order. -/
def keysD {α : Type} (d : NodeDict α) : List Node :=
  d.map Prod.fst

/-- Dict assignment `d[k] = v`: update an existing key in place,
otherwise append a new entry (Python insertion-order semantics). -/
def dictSet {α : Type} (d : NodeDict α) (k : Node) (v : α) : NodeDict α :=
  if containsKey d k then
    d.map (fun p => if p.1 = k then (p.1, v) else p)
  else
    d ++ [(k, v)]

/-- `d[k].append(v)` on an adjacency dict.  In the Python code this is
only ever executed after `add_node` has ensured that `k` is present; on
an absent key the model leaves the dict unchanged (Python would raise,
but that state is unreachable in `add_edge`). -/
def dictAppendTo (d : Graph) (k : Node) (v : Node) : Graph :=
  d.map (fun p => if p.1 = k then (p.1, p.2 ++ [v]) else p)

/-- The Python truthiness test used on the two caches: `None` and an
empty dict/list are falsy, everything else is truthy. -/
def truthyCache {α : Type} : Option (List α) → Option (List α)
  | none => none
  | some l => if l.isEmpty then none else some l

/-- The `Pipeline` object state: the two adjacency dicts and the two
caches (`__node_levels__`, `__level_nodes__`). -/
structure Pipeline where
  pre_graph : Graph
  post_graph : Graph
  node_levels : Option Memo
  level_nodes : Option (List (List Node))
deriving DecidableEq

/-- `Pipeline.__init__`. -/
def Pipeline.init : Pipeline :=
  { pre_graph := [], post_graph := [], node_levels := none, level_nodes := none }

/-- `Pipeline.add_node`: both caches are reset to `None` first, and only
then is the node inserted if not already a key. -/
def Pipeline.add_node (pl : Pipeline) (node : Node) : Pipeline :=
  let pl1 : Pipeline :=
    { pl with node_levels := none, level_nodes := none }
  if containsKey pl1.pre_graph node then pl1
  else
    { pl1 with pre_graph := pl1.pre_graph ++ [(node, [])],
               post_graph := pl1.post_graph ++ [(node, [])] }

/-- `Pipeline.add_edge`: `add_node` on both endpoints, then append to the
`to_node` predecessor list and the `from_node` successor list. -/
def Pipeline.add_edge (pl : Pipeline) (from_node to_node : Node) : Pipeline :=
  let pl1 := pl.add_node from_node
  let pl2 := pl1.add_node to_node
  { pl2 with pre_graph := dictAppendTo pl2.pre_graph to_node from_node,
             post_graph := dictAppendTo pl2.post_graph from_node to_node }

/-- `Pipeline.get_preimage` (raises `KeyError` on an absent node). -/
def Pipeline.get_preimage (pl : Pipeline) (node : Node) : Option (List Node) :=
  lookupD pl.pre_graph node

/-- `Pipeline.get_postimage`. -/
def Pipeline.get_postimage (pl : Pipeline) (node : Node) : Option (List Node) :=
  lookupD pl.post_graph node

/-- `Pipeline.get_pre_nodes`. -/
def Pipeline.get_pre_nodes (pl : Pipeline) (node : Node) : Option (List Node) :=
  lookupD pl.pre_graph node

/-- `Pipeline.get_post_nodes`. -/
def Pipeline.get_post_nodes (pl : Pipeline) (node : Node) : Option (List Node) :=
  lookupD pl.post_graph node

/-- `Pipeline.get_pre_edges`: a sentinel `Edge(None, node)` when the
predecessor list is empty, then one `Edge(p, node)` per predecessor in
list order (the loop body runs zero times in the sentinel case). -/
def Pipeline.get_pre_edges (pl : Pipeline) (node : Node) : Option (List Edge) :=
  match lookupD pl.pre_graph node with
  | none => none
  | some pre_nodes =>
    let sentinel : List Edge :=
      if pre_nodes = [] then [{ from_node := none, to_node := some node }] else []
    some (sentinel ++ pre_nodes.map (fun p => { from_node := some p, to_node := some node }))

/-- `Pipeline.get_post_edges`: symmetric to `get_pre_edges`. -/
def Pipeline.get_post_edges (pl : Pipeline) (node : Node) : Option (List Edge) :=
  match lookupD pl.post_graph node with
  | none => none
  | some post_nodes =>
    let sentinel : List Edge :=
      if post_nodes = [] then [{ from_node := some node, to_node := none }] else []
    some (sentinel ++ post_nodes.map (fun m => { from_node := some node, to_node := some m }))

/-- `Pipeline.is_terminal`: `len(self.get_post_edges(node)) == 0`. -/
def Pipeline.is_terminal (pl : Pipeline) (node : Node) : Option Bool :=
  (pl.get_post_edges node).map (fun es => es.length == 0)

/-- The `for p_node in node_preimage` loop of `compute_node_level`: runs
`f` (the recursive call at the next fuel level) on each predecessor,
accumulating `max_level = max(level, max_level)` and threading the memo
dict. -/
def foldLevels (f : Node → Memo → Option (Nat × Memo)) :
    List Node → Nat → Memo → Option (Nat × Memo)
  | [], acc, memo => some (acc, memo)
  | p :: rest, acc, memo =>
    match f p memo with
    | none => none
    | some (l, memo2) => foldLevels f rest (Nat.max l acc) memo2

/-- `Pipeline.compute_node_level(node, result)`: memo hit returns the
cached level; an absent adjacency entry is a `KeyError` (`none`); an
empty preimage yields level `0`; otherwise one more than the maximum of
the recursively computed predecessor levels.  The `fuel` parameter
bounds the recursion depth: Python's unbounded recursion diverges on a
cyclic graph, which the model reports as `none`. -/
def compute_node_level (g : Graph) : Nat → Node → Memo → Option (Nat × Memo)
  | 0, _, _ => none
  | fuel + 1, node, memo =>
    match lookupD memo node with
    | some l => some (l, memo)
    | none =>
      match lookupD g node with
      | none => none
      | some node_preimage =>
        if node_preimage = [] then
          some (0, dictSet memo node 0)
        else
          match foldLevels (compute_node_level g fuel) node_preimage 0 memo with
          | none => none
          | some (max_level, memo2) =>
            some (max_level + 1, dictSet memo2 node (max_level + 1))

/-- The `for node in self.__pre_graph__.keys()` loop of
`compute_node_levels`: `result[node] = self.compute_node_level(node, result)`. -/
def computeAllLevels (g : Graph) (fuel : Nat) : List Node → Memo → Option Memo
  | [], memo => some memo
  | n :: rest, memo =>
    match compute_node_level g fuel n memo with
    | none => none
    | some (l, memo2) => computeAllLevels g fuel rest (dictSet memo2 n l)

/-- `Pipeline.compute_node_levels`: serve a truthy cache, else recompute
from an empty dict and store the result in `__node_levels__`. -/
def Pipeline.compute_node_levels (pl : Pipeline) (fuel : Nat) :
    Option (Memo × Pipeline) :=
  match truthyCache pl.node_levels with
  | some d => some (d, pl)
  | none =>
    match computeAllLevels pl.pre_graph fuel (keysD pl.pre_graph) [] with
    | none => none
    | some result => some (result, { pl with node_levels := some result })

/-- The `max_level = max(node_level, max_level)` fold of
`compute_max_level`, starting from `0`. -/
def maxLevelVal : Memo → Nat → Nat
  | [], acc => acc
  | e :: rest, acc => maxLevelVal rest (Nat.max e.2 acc)

/-- `Pipeline.compute_max_level`. -/
def Pipeline.compute_max_level (pl : Pipeline) (fuel : Nat) :
    Option (Nat × Pipeline) :=
  match pl.compute_node_levels fuel with
  | none => none
  | some (levels, pl1) => some (maxLevelVal levels 0, pl1)

/-- `result[i].append(n)` on the bucket list; out-of-range indices leave
the list unchanged (Python would raise `IndexError`, but every level is
proved to be within range where this is used). -/
def bucketsAppend : List (List Node) → Nat → Node → List (List Node)
  | [], _, _ => []
  | b :: bs, 0, n => (b ++ [n]) :: bs
  | b :: bs, i + 1, n => b :: bucketsAppend bs i n

/-- `result[i]` on the bucket list (`[]` when out of range). -/
def bucketGet : List (List Node) → Nat → List Node
  | [], _ => []
  | b :: _, 0 => b
  | _ :: bs, i + 1 => bucketGet bs i

/-- The `for node, node_level in levels.items()` loop of
`get_nodes_by_level`. -/
def fillBuckets : Memo → List (List Node) → List (List Node)
  | [], buckets => buckets
  | (n, l) :: rest, buckets => fillBuckets rest (bucketsAppend buckets l n)

/-- `Pipeline.get_nodes_by_level`: serve a truthy cache, else compute the
levels, size the bucket list as `compute_max_level() + 1`, distribute
the nodes, and store the result in `__level_nodes__`. -/
def Pipeline.get_nodes_by_level (pl : Pipeline) (fuel : Nat) :
    Option (List (List Node) × Pipeline) :=
  match truthyCache pl.level_nodes with
  | some b => some (b, pl)
  | none =>
    match pl.compute_node_levels fuel with
    | none => none
    | some (levels, pl1) =>
      match pl1.compute_max_level fuel with
      | none => none
      | some (mx, pl2) =>
        let filled := fillBuckets levels (List.replicate (mx + 1) [])
        some (filled, { pl2 with level_nodes := some filled })

/-- Pipelines reachable from `Pipeline.__init__()` by any sequence of
`add_node` / `add_edge` calls. -/
inductive Reachable : Pipeline → Prop
  | init : Reachable Pipeline.init
  | add_node (pl : Pipeline) (n : Node) : Reachable pl → Reachable (pl.add_node n)
  | add_edge (pl : Pipeline) (a b : Node) : Reachable pl → Reachable (pl.add_edge a b)

/-- Every binding of `d1` is present with the same value in `d2`. -/
def submap {α : Type} (d1 d2 : NodeDict α) : Prop :=
  ∀ k v, lookupD d1 k = some v → lookupD d2 k = some v

/-- The keys of the dict are pairwise distinct (true of every Python
dict, and preserved by all the dict operations used here). -/
def keysNodup {α : Type} (d : NodeDict α) : Prop :=
  (keysD d).Nodup

/-- Look up a list of nodes in a level dict, failing if any is absent. -/
def lookupAll (L : Memo) : List Node → Option (List Nat)
  | [] => some []
  | p :: rest =>
    match lookupD L p, lookupAll L rest with
    | some l, some ls => some (l :: ls)
    | _, _ => none

/-- `maxAcc ls acc` folds `Nat.max` over `ls` starting from `acc`,
exactly like the `max_level` accumulator of `compute_node_level`. -/
def maxAcc : List Nat → Nat → Nat
  | [], acc => acc
  | x :: rest, acc => maxAcc rest (Nat.max x acc)

/-- A single level binding satisfies the longest-path recurrence with
respect to the level dict `L`: level `0` for an empty preimage, else one
plus the maximum of the predecessor levels, all of which are bound in
`L`. -/
def entryOK (g : Graph) (L : Memo) (n : Node) (l : Nat) : Prop :=
  ∃ preds, lookupD g n = some preds ∧
    ((preds = [] ∧ l = 0) ∨
     (preds ≠ [] ∧ ∃ ls, lookupAll L preds = some ls ∧ l = maxAcc ls 0 + 1))

/-- Every binding of the level dict satisfies the recurrence. -/
def coherent (g : Graph) (L : Memo) : Prop :=
  ∀ n l, lookupD L n = some l → entryOK g L n l

/-- `r` is a topological ranking of the graph: along every edge the
predecessor has strictly smaller rank.  A finite directed graph admits
such a ranking exactly when it has no directed cycle, so this is the
shallow-embedded form of acyclicity. -/
def RankedBy (g : Graph) (r : Node → Nat) : Prop :=
  ∀ n ∈ keysD g, ∀ p ∈ (lookupD g n).getD [], r p < r n

instance rankedByDecidable (g : Graph) (r : Node → Nat) :
    Decidable (RankedBy g r) :=
  decidable_of_iff (∀ n ∈ keysD g, ∀ p ∈ (lookupD g n).getD [], r p < r n) Iff.rfl

/-- The graph of the pipeline is acyclic (it admits a topological
ranking). -/
def Acyclic (pl : Pipeline) : Prop :=
  ∃ r : Node → Nat, RankedBy pl.pre_graph r

/-- A path from `a` to `c` that repeatedly steps from a node to one of
its predecessors. -/
inductive PredPath (g : Graph) : Node → Node → Prop
  | refl (n : Node) : PredPath g n n
  | step {a b c : Node} : b ∈ (lookupD g a).getD [] →
      PredPath g b c → PredPath g a c

/-- Number of occurrences of `n` in a list of nodes. -/
def countOcc (n : Node) : List Node → Nat
  | [] => 0
  | m :: rest => (if m = n then 1 else 0) + countOcc n rest

/-- Total number of occurrences of `n` across all buckets. -/
def totalCount (buckets : List (List Node)) (n : Node) : Nat :=
  (buckets.map (countOcc n)).sum

/-- The leveling recurrence at node `n` (with preimage `preds`) for the
level dict `L`, together with its edge consequences: the level of `n`
exceeds the level of every predecessor by at least one, with equality
for at least one predecessor. -/
def levelRecurrence (L : Memo) (n : Node) (preds : List Node) : Prop :=
  ∃ l, lookupD L n = some l ∧
    (preds = [] → l = 0) ∧
    (preds ≠ [] →
      (∃ ls, lookupAll L preds = some ls ∧ l = maxAcc ls 0 + 1) ∧
      (∀ p ∈ preds, ∃ lp, lookupD L p = some lp ∧ lp + 1 ≤ l) ∧
      (∃ p ∈ preds, ∃ lp, lookupD L p = some lp ∧ lp + 1 = l))

/-- The buckets `B` partition the keys of `g` according to the level
dict `L`: every key occurs in exactly one bucket (and nothing else
occurs), and a node sits in bucket `i` exactly when its level is `i`. -/
def partitionsByLevel (g : Graph) (L : Memo) (B : List (List Node)) : Prop :=
  (∀ n, totalCount B n = if n ∈ keysD g then 1 else 0) ∧
  (∀ n i, n ∈ bucketGet B i ↔ lookupD L n = some i)

/-- Concrete node `A` (source of the diamond example). -/
def nA : Node := { kind := NodeKind.estimator, name := "A", id := 0 }

/-- Concrete node `B`. -/
def nB : Node := { kind := NodeKind.estimator, name := "B", id := 1 }

/-- Concrete node `C`. -/
def nC : Node := { kind := NodeKind.estimator, name := "C", id := 2 }

/-- Concrete node `D` (sink of the diamond example). -/
def nD : Node := { kind := NodeKind.andNode, name := "D", id := 3 }

/-- The diamond pipeline `A→B, A→C, B→D, C→D` of §8 Scenario 3. -/
def dpl : Pipeline :=
  (((Pipeline.init.add_edge nA nB).add_edge nA nC).add_edge nB nD).add_edge nC nD

/-- Level dict computed for the diamond: `{A:0, B:1, C:1, D:2}`. -/
def dLevels : Memo := [(nA, 0), (nB, 1), (nC, 1), (nD, 2)]

/-- The diamond pipeline after `compute_node_levels` has filled its
level cache. -/
def dplLeveled : Pipeline := { dpl with node_levels := some dLevels }

/-- The diamond's level buckets `[[A], [B, C], [D]]`. -/
def dBuckets : List (List Node) := [[nA], [nB, nC], [nD]]

/-- The diamond pipeline after `get_nodes_by_level` has filled both
caches. -/
def dplFinal : Pipeline :=
  { dpl with node_levels := some dLevels, level_nodes := some dBuckets }

/-- A one-node pipeline with a computed (hence truthy) level cache, used
to exhibit the cache invalidation performed by `add_node`. -/
def onePl : Pipeline :=
  { pre_graph := [(nA, [])], post_graph := [(nA, [])],
    node_levels := some [(nA, 0)], level_nodes := none }

/-- A concrete estimator node object (capability satisfying the
contract). -/
def eA : EstimatorNode :=
  { node := nA,
    estimator := { hasFit := true, hasTransform := true,
                   hasMultiTransform := false, params := 5 } }

/-- A concrete and-node object. -/
def aD : AndNode :=
  { node := nD,
    and_func := { hasFit := false, hasTransform := false,
                  hasMultiTransform := true, params := 0 } }

/-- A capability object satisfying neither contract. -/
def badCap : Capability :=
  { hasFit := false, hasTransform := false, hasMultiTransform := false, params := 0 }

/- ------------------------------------------------------------------ -/
/- Theorems.                                                           -/
/- ------------------------------------------------------------------ -/

theorem lookupD_cons {α : Type} (ek : Node) (ev : α) (rest : NodeDict α)
    (x : Node) :
    lookupD ((ek, ev) :: rest) x = if ek = x then some ev else lookupD rest x :=
  rfl

theorem dictSet_cons_ne {α : Type} (e : Node × α) (rest : NodeDict α)
    (k : Node) (v : α) (h : e.1 ≠ k) :
    dictSet (e :: rest) k v = e :: dictSet rest k v := by
  obtain ⟨ek, ev⟩ := e
  simp only [] at h
  by_cases hc : containsKey rest k = true <;>
    simp [dictSet, containsKey, lookupD_cons, h, hc] <;>
    split <;> rfl

theorem lookupD_mapUpdate_ne {α : Type} (d : NodeDict α) (k : Node) (v : α)
    (x : Node) (hx : x ≠ k) :
    lookupD (d.map (fun p => if p.1 = k then (p.1, v) else p)) x = lookupD d x := by
  induction d with
  | nil => rfl
  | cons e rest ih =>
    obtain ⟨ek, ev⟩ := e
    simp only [List.map_cons]
    by_cases h1 : ek = k
    · rw [if_pos (by simpa using h1)]
      have hex : ek ≠ x := fun hkx => hx (h1 ▸ hkx).symm
      rw [lookupD_cons, lookupD_cons, if_neg hex, if_neg hex, ih]
    · rw [if_neg (by simpa using h1)]
      by_cases h2 : ek = x <;>
        rw [lookupD_cons, lookupD_cons] <;> simp [h2, ih]

theorem lookupD_dictSet {α : Type} (d : NodeDict α) (k : Node) (v : α) (x : Node) :
    lookupD (dictSet d k v) x = if x = k then some v else lookupD d x := by
  induction d with
  | nil =>
    by_cases h : x = k
    · simp [dictSet, containsKey, lookupD, lookupD_cons, h]
    · have hkx : ¬(k = x) := fun hk => h hk.symm
      simp [dictSet, containsKey, lookupD, lookupD_cons, h, hkx]
  | cons e rest ih =>
    obtain ⟨ek, ev⟩ := e
    by_cases h1 : ek = k
    · have hc : containsKey ((ek, ev) :: rest) k = true := by
        simp [containsKey, lookupD_cons, h1]
      rw [dictSet, if_pos hc, List.map_cons, if_pos (by simpa using h1)]
      by_cases h2 : x = k
      · have hkx : ek = x := by rw [h1, h2]
        rw [lookupD_cons, if_pos hkx, if_pos h2]
      · have hex : ek ≠ x := by rw [h1]; exact fun hkx => h2 hkx.symm
        rw [lookupD_cons, if_neg hex, if_neg h2,
            lookupD_mapUpdate_ne rest k v x h2, lookupD_cons, if_neg hex]
    · rw [dictSet_cons_ne (ek, ev) rest k v (by simpa using h1)]
      by_cases h2 : ek = x
      · have hxk : ¬(x = k) := by rw [← h2]; exact fun hek => h1 hek
        rw [lookupD_cons, if_pos h2, if_neg hxk, lookupD_cons, if_pos h2]
      · rw [lookupD_cons, if_neg h2, ih, lookupD_cons, if_neg h2]

theorem lookupD_dictSet_self {α : Type} (d : NodeDict α) (k : Node) (v : α)
    (h : lookupD d k = some v) (x : Node) :
    lookupD (dictSet d k v) x = lookupD d x := by
  rw [lookupD_dictSet]
  by_cases hx : x = k <;> simp [hx, h]

theorem mem_keysD_of_lookupD {α : Type} (d : NodeDict α) (x : Node) (v : α)
    (h : lookupD d x = some v) : x ∈ keysD d := by
  induction d with
  | nil => simp [lookupD] at h
  | cons e rest ih =>
    by_cases he : e.1 = x
    · simp [keysD, he]
    · simp [lookupD, he] at h
      simp [keysD]
      exact Or.inr (by simpa [keysD] using ih h)

theorem lookupD_isSome_of_mem {α : Type} (d : NodeDict α) (x : Node)
    (h : x ∈ keysD d) : (lookupD d x).isSome = true := by
  induction d with
  | nil => simp [keysD] at h
  | cons e rest ih =>
    by_cases he : e.1 = x
    · simp [lookupD, he]
    · simp [keysD, he] at h
      rcases h with h | h
      · exact absurd h.symm he
      · simp [lookupD, he]
        exact ih (by simpa [keysD] using h)

theorem lookupD_mem_pair {α : Type} (d : NodeDict α) (x : Node) (v : α)
    (h : lookupD d x = some v) : (x, v) ∈ d := by
  induction d with
  | nil => simp [lookupD] at h
  | cons e rest ih =>
    obtain ⟨ek, ev⟩ := e
    by_cases he : ek = x
    · rw [lookupD_cons, if_pos he] at h
      injection h with h
      rw [← he, ← h]
      exact List.mem_cons_self _ _
    · rw [lookupD_cons, if_neg he] at h
      exact List.mem_cons_of_mem _ (ih h)

theorem lookupD_of_mem_nodup {α : Type} (d : NodeDict α) (x : Node) (v : α)
    (hnd : keysNodup d) (h : (x, v) ∈ d) : lookupD d x = some v := by
  induction d with
  | nil => simp at h
  | cons e rest ih =>
    obtain ⟨ek, ev⟩ := e
    have hnd2 : ek ∉ keysD rest ∧ (keysD rest).Nodup :=
      List.nodup_cons.mp (show (ek :: keysD rest).Nodup from hnd)
    rcases List.mem_cons.mp h with h | h
    · rw [Prod.mk.injEq] at h
      rw [lookupD_cons, if_pos h.1.symm, h.2]
    · have hxmem : x ∈ keysD rest := List.mem_map_of_mem Prod.fst h
      have hx : ek ≠ x := fun he => hnd2.1 (he ▸ hxmem)
      rw [lookupD_cons, if_neg hx]
      exact ih hnd2.2 h

theorem keysD_mapUpdate {α : Type} (d : NodeDict α) (k : Node) (v : α) :
    keysD (d.map (fun p => if p.1 = k then (p.1, v) else p)) = keysD d := by
  induction d with
  | nil => rfl
  | cons e rest ih =>
    obtain ⟨ek, ev⟩ := e
    by_cases h : ek = k
    · simp only [List.map_cons, if_pos (show (ek, ev).1 = k from h)]
      show ek :: keysD (rest.map _) = ek :: keysD rest
      rw [ih]
    · simp only [List.map_cons, if_neg (show ¬((ek, ev).1 = k) from h)]
      show ek :: keysD (rest.map _) = ek :: keysD rest
      rw [ih]

theorem keysD_dictSet {α : Type} (d : NodeDict α) (k : Node) (v : α) :
    keysD (dictSet d k v) = if containsKey d k then keysD d else keysD d ++ [k] := by
  by_cases hc : containsKey d k = true
  · simp [dictSet, hc, keysD_mapUpdate]
  · simp [dictSet, hc, keysD]

theorem keysNodup_dictSet {α : Type} (d : NodeDict α) (k : Node) (v : α)
    (h : keysNodup d) : keysNodup (dictSet d k v) := by
  unfold keysNodup
  rw [keysD_dictSet]
  by_cases hc : containsKey d k = true
  · simpa [hc] using h
  · have hk : k ∉ keysD d := by
      intro hmem
      have := lookupD_isSome_of_mem d k hmem
      simp [containsKey] at hc
      simp [hc] at this
    simp [hc, List.nodup_append, h, hk]
    exact h

theorem submap_refl {α : Type} (d : NodeDict α) : submap d d :=
  fun _ _ h => h

theorem submap_trans {α : Type} {d1 d2 d3 : NodeDict α}
    (h1 : submap d1 d2) (h2 : submap d2 d3) : submap d1 d3 :=
  fun k v hv => h2 k v (h1 k v hv)

theorem submap_dictSet_fresh {α : Type} (d d2 : NodeDict α) (k : Node) (v : α)
    (hsub : submap d d2) (hfresh : lookupD d k = none) :
    submap d (dictSet d2 k v) := by
  intro x w hx
  rw [lookupD_dictSet]
  have hxk : x ≠ k := fun he => by rw [he] at hx; rw [hfresh] at hx; cases hx
  simp [hxk]
  exact hsub x w hx

theorem submap_dictSet_self {α : Type} (d : NodeDict α) (k : Node) (v : α)
    (hfresh : lookupD d k = none) : submap d (dictSet d k v) :=
  submap_dictSet_fresh d d k v (submap_refl d) hfresh

theorem lookupAll_submap (L L2 : Memo) (hsub : submap L L2) :
    ∀ ps ls, lookupAll L ps = some ls → lookupAll L2 ps = some ls := by
  intro ps
  induction ps with
  | nil => intro ls h; exact h
  | cons p rest ih =>
    intro ls h
    cases hp : lookupD L p with
    | none => simp [lookupAll, hp] at h
    | some l =>
      cases hr : lookupAll L rest with
      | none => simp [lookupAll, hp, hr] at h
      | some ls2 =>
        simp [lookupAll, hp, hr] at h
        rw [lookupAll, hsub p l hp, ih ls2 hr]
        simp [h]

theorem lookupAll_mem (L : Memo) :
    ∀ ps ls p, lookupAll L ps = some ls → p ∈ ps →
      ∃ lp, lookupD L p = some lp ∧ lp ∈ ls := by
  intro ps
  induction ps with
  | nil => intro ls p _ hp; simp at hp
  | cons q rest ih =>
    intro ls p h hp
    cases hq : lookupD L q with
    | none => simp [lookupAll, hq] at h
    | some l =>
      cases hr : lookupAll L rest with
      | none => simp [lookupAll, hq, hr] at h
      | some ls2 =>
        simp [lookupAll, hq, hr] at h
        rcases List.mem_cons.mp hp with hp | hp
        · exact ⟨l, hp ▸ hq, by rw [← h]; exact List.mem_cons_self _ _⟩
        · obtain ⟨lp, h1, h2⟩ := ih ls2 p hr hp
          exact ⟨lp, h1, by rw [← h]; exact List.mem_cons_of_mem _ h2⟩

theorem lookupAll_mem_rev (L : Memo) :
    ∀ ps ls lp, lookupAll L ps = some ls → lp ∈ ls →
      ∃ p, p ∈ ps ∧ lookupD L p = some lp := by
  intro ps
  induction ps with
  | nil =>
    intro ls lp h hlp
    simp [lookupAll] at h
    rw [h] at hlp
    simp at hlp
  | cons q rest ih =>
    intro ls lp h hlp
    cases hq : lookupD L q with
    | none => simp [lookupAll, hq] at h
    | some l =>
      cases hr : lookupAll L rest with
      | none => simp [lookupAll, hq, hr] at h
      | some ls2 =>
        simp [lookupAll, hq, hr] at h
        rw [← h] at hlp
        rcases List.mem_cons.mp hlp with hlp | hlp
        · exact ⟨q, List.mem_cons_self _ _, hlp ▸ hq⟩
        · obtain ⟨p, h1, h2⟩ := ih ls2 lp hr hlp
          exact ⟨p, List.mem_cons_of_mem _ h1, h2⟩

theorem lookupAll_ne_nil (L : Memo) (p : Node) (rest : List Node) (ls : List Nat)
    (h : lookupAll L (p :: rest) = some ls) : ls ≠ [] := by
  cases hp : lookupD L p with
  | none => simp [lookupAll, hp] at h
  | some l =>
    cases hr : lookupAll L rest with
    | none => simp [lookupAll, hp, hr] at h
    | some ls2 =>
      simp [lookupAll, hp, hr] at h
      rw [← h]
      simp

theorem maxAcc_acc_le : ∀ (ls : List Nat) (acc : Nat), acc ≤ maxAcc ls acc := by
  intro ls
  induction ls with
  | nil => intro acc; exact le_rfl
  | cons x rest ih =>
    intro acc
    calc acc ≤ Nat.max x acc := Nat.le_max_right x acc
    _ ≤ maxAcc rest (Nat.max x acc) := ih _
    _ = maxAcc (x :: rest) acc := rfl

theorem maxAcc_le_of_mem : ∀ (ls : List Nat) (acc x : Nat), x ∈ ls → x ≤ maxAcc ls acc := by
  intro ls
  induction ls with
  | nil => intro acc x hx; simp at hx
  | cons y rest ih =>
    intro acc x hx
    rcases List.mem_cons.mp hx with hx | hx
    · rw [hx]
      calc y ≤ Nat.max y acc := Nat.le_max_left y acc
      _ ≤ maxAcc rest (Nat.max y acc) := maxAcc_acc_le rest _
    · exact ih _ x hx

theorem natMax_choice (a b : Nat) : Nat.max a b = a ∨ Nat.max a b = b := by
  rcases Nat.le_total a b with h | h
  · exact Or.inr (Nat.max_eq_right h)
  · exact Or.inl (Nat.max_eq_left h)

theorem maxAcc_mem_or : ∀ (ls : List Nat) (acc : Nat),
    maxAcc ls acc = acc ∨ maxAcc ls acc ∈ ls := by
  intro ls
  induction ls with
  | nil => intro acc; exact Or.inl rfl
  | cons x rest ih =>
    intro acc
    have hstep : maxAcc (x :: rest) acc = maxAcc rest (Nat.max x acc) := rfl
    rcases ih (Nat.max x acc) with h | h
    · rcases natMax_choice x acc with hm | hm
      · right
        rw [hstep, h, hm]
        exact List.mem_cons_self _ _
      · left
        rw [hstep, h, hm]
    · right
      rw [hstep]
      exact List.mem_cons_of_mem _ h

theorem maxAcc_mem (ls : List Nat) (hne : ls ≠ []) : maxAcc ls 0 ∈ ls := by
  cases ls with
  | nil => exact absurd rfl hne
  | cons x rest =>
    have hx : maxAcc (x :: rest) 0 = maxAcc rest x := by
      show maxAcc rest (Nat.max x 0) = maxAcc rest x
      rw [show Nat.max x 0 = x from Nat.max_zero x]
    rw [hx]
    rcases maxAcc_mem_or rest x with h2 | h2
    · rw [h2]; exact List.mem_cons_self _ _
    · exact List.mem_cons_of_mem _ h2

theorem entryOK_mono (g : Graph) (L L2 : Memo) (hsub : submap L L2)
    (n : Node) (l : Nat) (h : entryOK g L n l) : entryOK g L2 n l := by
  obtain ⟨preds, hg, hcase⟩ := h
  refine ⟨preds, hg, ?_⟩
  rcases hcase with h | ⟨hne, ls, hls, hl⟩
  · exact Or.inl h
  · exact Or.inr ⟨hne, ls, lookupAll_submap L L2 hsub preds ls hls, hl⟩

theorem lookupAll_congr (L L2 : Memo) (h : ∀ x, lookupD L x = lookupD L2 x) :
    ∀ ps, lookupAll L ps = lookupAll L2 ps := by
  intro ps
  induction ps with
  | nil => rfl
  | cons p rest ih => rw [lookupAll, lookupAll, h p, ih]

theorem coherent_congr (g : Graph) (L L2 : Memo)
    (h : ∀ x, lookupD L x = lookupD L2 x) (hc : coherent g L) : coherent g L2 := by
  intro n l hl
  have hl2 : lookupD L n = some l := by rw [h n]; exact hl
  obtain ⟨preds, hg, hcase⟩ := hc n l hl2
  refine ⟨preds, hg, ?_⟩
  rcases hcase with hcase | ⟨hne, ls, hls, hmx⟩
  · exact Or.inl hcase
  · exact Or.inr ⟨hne, ls, by rw [← lookupAll_congr L L2 h preds]; exact hls, hmx⟩

theorem rank_le_of_predPath (g : Graph) (r : Node → Nat) (RB : RankedBy g r)
    {a c : Node} (h : PredPath g a c) : r c ≤ r a := by
  induction h with
  | refl n => exact le_rfl
  | @step a2 b2 c2 hb _ ih =>
    have ha : a2 ∈ keysD g := by
      cases hga : lookupD g a2 with
      | none => rw [hga] at hb; simp at hb
      | some preds => exact mem_keysD_of_lookupD g a2 preds hga
    have hlt : r b2 < r a2 := RB a2 ha b2 hb
    omega

theorem foldLevels_submap (f : Node → Memo → Option (Nat × Memo))
    (hf : ∀ p memo l m2, f p memo = some (l, m2) →
      submap memo m2 ∧ lookupD m2 p = some l ∧ (keysNodup memo → keysNodup m2)) :
    ∀ ps acc memo mx m2, foldLevels f ps acc memo = some (mx, m2) →
      submap memo m2 ∧ (∃ ls, lookupAll m2 ps = some ls ∧ mx = maxAcc ls acc) ∧
      (keysNodup memo → keysNodup m2) := by
  intro ps
  induction ps with
  | nil =>
    intro acc memo mx m2 h
    simp [foldLevels] at h
    obtain ⟨h1, h2⟩ := h
    rw [← h1, ← h2]
    exact ⟨submap_refl memo, ⟨[], rfl, rfl⟩, fun hn => hn⟩
  | cons p rest ih =>
    intro acc memo mx m2 h
    cases hp : f p memo with
    | none => simp [foldLevels, hp] at h
    | some pr =>
      obtain ⟨l, memo2⟩ := pr
      rw [foldLevels, hp] at h
      obtain ⟨hs1, hl1, hn1⟩ := hf p memo l memo2 hp
      obtain ⟨hs2, ⟨ls, hls, hmx⟩, hn2⟩ := ih (Nat.max l acc) memo2 mx m2 h
      refine ⟨submap_trans hs1 hs2, ⟨l :: ls, ?_, hmx⟩, fun hn => hn2 (hn1 hn)⟩
      rw [lookupAll, hs2 p l hl1, hls]

theorem compute_node_level_submap (g : Graph) :
    ∀ fuel node memo l m2, compute_node_level g fuel node memo = some (l, m2) →
      submap memo m2 ∧ lookupD m2 node = some l ∧ (keysNodup memo → keysNodup m2) := by
  intro fuel
  induction fuel with
  | zero => intro node memo l m2 h; simp [compute_node_level] at h
  | succ fuel ih =>
    intro node memo l m2 h
    rw [compute_node_level] at h
    cases hm : lookupD memo node with
    | some l0 =>
      rw [hm] at h
      simp at h
      obtain ⟨h1, h2⟩ := h
      rw [← h1, ← h2]
      exact ⟨submap_refl memo, hm, fun hn => hn⟩
    | none =>
      rw [hm] at h
      simp only at h
      cases hg : lookupD g node with
      | none => rw [hg] at h; simp at h
      | some preim =>
        rw [hg] at h
        simp only at h
        by_cases hpre : preim = []
        · rw [if_pos hpre] at h
          simp at h
          obtain ⟨h1, h2⟩ := h
          rw [← h1, ← h2]
          refine ⟨submap_dictSet_self memo node 0 hm, ?_, fun hn => keysNodup_dictSet _ _ _ hn⟩
          rw [lookupD_dictSet]
          simp
        · rw [if_neg hpre] at h
          cases hfold : foldLevels (compute_node_level g fuel) preim 0 memo with
          | none => rw [hfold] at h; simp at h
          | some pr =>
            obtain ⟨mxl, memo2⟩ := pr
            rw [hfold] at h
            simp at h
            obtain ⟨h1, h2⟩ := h
            obtain ⟨hs, _, hn⟩ := foldLevels_submap (compute_node_level g fuel) ih preim 0 memo mxl memo2 hfold
            rw [← h1, ← h2]
            refine ⟨submap_dictSet_fresh memo memo2 node (mxl + 1) hs hm, ?_,
              fun hnd => keysNodup_dictSet _ _ _ (hn hnd)⟩
            rw [lookupD_dictSet]
            simp

theorem foldLevels_coherent (g : Graph) (f : Node → Memo → Option (Nat × Memo))
    (hfc : ∀ p memo l m2, f p memo = some (l, m2) → coherent g memo →
      coherent g m2 ∧
      (∀ k, lookupD memo k = none → (lookupD m2 k).isSome = true → PredPath g p k)) :
    ∀ ps acc memo mx m2, foldLevels f ps acc memo = some (mx, m2) → coherent g memo →
      coherent g m2 ∧
      (∀ k, lookupD memo k = none → (lookupD m2 k).isSome = true →
        ∃ p, p ∈ ps ∧ PredPath g p k) := by
  intro ps
  induction ps with
  | nil =>
    intro acc memo mx m2 h hcoh
    simp [foldLevels] at h
    obtain ⟨_, h2⟩ := h
    rw [← h2]
    refine ⟨hcoh, fun k hk1 hk2 => ?_⟩
    rw [hk1] at hk2
    simp at hk2
  | cons p rest ih =>
    intro acc memo mx m2 h hcoh
    cases hp : f p memo with
    | none => rw [foldLevels, hp] at h; simp at h
    | some pr =>
      obtain ⟨l, memo2⟩ := pr
      rw [foldLevels, hp] at h
      obtain ⟨hcoh2, hnew1⟩ := hfc p memo l memo2 hp hcoh
      obtain ⟨hcoh3, hnew2⟩ := ih (Nat.max l acc) memo2 mx m2 h hcoh2
      refine ⟨hcoh3, fun k hk1 hk2 => ?_⟩
      cases hk12 : lookupD memo2 k with
      | some v =>
        exact ⟨p, List.mem_cons_self _ _, hnew1 k hk1 (by rw [hk12]; rfl)⟩
      | none =>
        obtain ⟨q, hq1, hq2⟩ := hnew2 k hk12 hk2
        exact ⟨q, List.mem_cons_of_mem _ hq1, hq2⟩

theorem compute_node_level_coherent (g : Graph) (r : Node → Nat)
    (RB : RankedBy g r) :
    ∀ fuel node memo l m2, compute_node_level g fuel node memo = some (l, m2) →
      coherent g memo →
      coherent g m2 ∧
      (∀ k, lookupD memo k = none → (lookupD m2 k).isSome = true →
        PredPath g node k) := by
  intro fuel
  induction fuel with
  | zero => intro node memo l m2 h _; simp [compute_node_level] at h
  | succ fuel ih =>
    intro node memo l m2 h hcoh
    rw [compute_node_level] at h
    cases hm : lookupD memo node with
    | some l0 =>
      rw [hm] at h
      simp at h
      obtain ⟨_, h2⟩ := h
      rw [← h2]
      refine ⟨hcoh, fun k hk1 hk2 => ?_⟩
      rw [hk1] at hk2
      simp at hk2
    | none =>
      rw [hm] at h
      simp only at h
      cases hg : lookupD g node with
      | none => rw [hg] at h; simp at h
      | some preim =>
        rw [hg] at h
        simp only at h
        by_cases hpre : preim = []
        · rw [if_pos hpre] at h
          simp at h
          obtain ⟨h1, h2⟩ := h
          rw [← h2]
          constructor
          · intro x lx hx
            rw [lookupD_dictSet] at hx
            by_cases hxn : x = node
            · rw [if_pos hxn] at hx
              injection hx with hx
              subst hxn
              exact ⟨preim, hg, Or.inl ⟨hpre, hx.symm⟩⟩
            · rw [if_neg hxn] at hx
              exact entryOK_mono g memo _ (submap_dictSet_self memo node 0 hm)
                x lx (hcoh x lx hx)
          · intro k hk1 hk2
            rw [lookupD_dictSet] at hk2
            by_cases hkn : k = node
            · rw [hkn]; exact PredPath.refl node
            · rw [if_neg hkn, hk1] at hk2
              simp at hk2
        · rw [if_neg hpre] at h
          cases hfold : foldLevels (compute_node_level g fuel) preim 0 memo with
          | none => rw [hfold] at h; simp at h
          | some pr =>
            obtain ⟨mxl, memo2⟩ := pr
            rw [hfold] at h
            simp at h
            obtain ⟨h1, h2⟩ := h
            obtain ⟨hsub, ⟨ls, hls, hmx⟩, _⟩ :=
              foldLevels_submap (compute_node_level g fuel)
                (compute_node_level_submap g fuel) preim 0 memo mxl memo2 hfold
            obtain ⟨hcoh2, hnew⟩ :=
              foldLevels_coherent g (compute_node_level g fuel) ih
                preim 0 memo mxl memo2 hfold hcoh
            have hfresh : lookupD memo2 node = none := by
              cases hn2 : lookupD memo2 node with
              | none => rfl
              | some v =>
                obtain ⟨p, hp, hpath⟩ := hnew node hm (by rw [hn2]; rfl)
                have hrank1 : r node ≤ r p := rank_le_of_predPath g r RB hpath
                have hnode : node ∈ keysD g := mem_keysD_of_lookupD g node preim hg
                have hrank2 : r p < r node := RB node hnode p (by rw [hg]; exact hp)
                omega
            rw [← h2]
            constructor
            · intro x lx hx
              rw [lookupD_dictSet] at hx
              by_cases hxn : x = node
              · rw [if_pos hxn] at hx
                injection hx with hx
                rw [hxn]
                refine ⟨preim, hg, Or.inr ⟨hpre, ls, ?_, ?_⟩⟩
                · exact lookupAll_submap memo2 _
                    (submap_dictSet_self memo2 node (mxl + 1) hfresh) preim ls hls
                · rw [← hx, hmx]
              · rw [if_neg hxn] at hx
                exact entryOK_mono g memo2 _
                  (submap_dictSet_self memo2 node (mxl + 1) hfresh)
                  x lx (hcoh2 x lx hx)
            · intro k hk1 hk2
              rw [lookupD_dictSet] at hk2
              by_cases hkn : k = node
              · rw [hkn]; exact PredPath.refl node
              · rw [if_neg hkn] at hk2
                obtain ⟨p, hp, hpath⟩ := hnew k hk1 hk2
                exact PredPath.step (by rw [hg]; exact hp) hpath

theorem keysD_append {α : Type} (d : NodeDict α) (n : Node) (v : α) :
    keysD (d ++ [(n, v)]) = keysD d ++ [n] := by
  simp [keysD]

theorem keysD_dictAppendTo (d : Graph) (k v : Node) :
    keysD (dictAppendTo d k v) = keysD d := by
  induction d with
  | nil => rfl
  | cons e rest ih =>
    by_cases h : e.1 = k <;> simp [dictAppendTo, keysD, h] at ih ⊢ <;> exact ih

theorem keys_add_node (pl : Pipeline) (n : Node)
    (h : keysD pl.pre_graph = keysD pl.post_graph) :
    keysD (pl.add_node n).pre_graph = keysD (pl.add_node n).post_graph := by
  unfold Pipeline.add_node
  by_cases hc : containsKey pl.pre_graph n = true <;>
    simp [hc, keysD_append, h]

/-- C9: every pipeline reachable from the empty pipeline has the same
key set (indeed the same insertion-ordered key list) in `pre_graph` and
`post_graph`: nodes are always inserted into both together, and
`add_edge` only mutates values of existing keys. -/
theorem c9_pre_post_keys_agree (pl : Pipeline) (h : Reachable pl) :
    keysD pl.pre_graph = keysD pl.post_graph := by
  induction h with
  | init => rfl
  | add_node pl n _ ih => exact keys_add_node pl n ih
  | add_edge pl a b _ ih =>
    show keysD (dictAppendTo _ _ _) = keysD (dictAppendTo _ _ _)
    rw [keysD_dictAppendTo, keysD_dictAppendTo]
    exact keys_add_node _ b (keys_add_node pl a ih)

theorem c9_witness :
    Reachable ((Pipeline.init.add_edge nA nB).add_node nC) ∧
    keysD ((Pipeline.init.add_edge nA nB).add_node nC).pre_graph =
      keysD ((Pipeline.init.add_edge nA nB).add_node nC).post_graph :=
  ⟨Reachable.add_node _ nC (Reachable.add_edge _ nA nB Reachable.init),
   c9_pre_post_keys_agree _
     (Reachable.add_node _ nC (Reachable.add_edge _ nA nB Reachable.init))⟩

theorem computeAllLevels_sound (g : Graph) (fuel : Nat) :
    ∀ ks memo L, computeAllLevels g fuel ks memo = some L →
      submap memo L ∧ (∀ k ∈ ks, (lookupD L k).isSome = true) ∧
      (keysNodup memo → keysNodup L) := by
  intro ks
  induction ks with
  | nil =>
    intro memo L h
    simp [computeAllLevels] at h
    rw [← h]
    exact ⟨submap_refl _, by simp, fun hn => hn⟩
  | cons n rest ih =>
    intro memo L h
    cases hc : compute_node_level g fuel n memo with
    | none => rw [computeAllLevels, hc] at h; simp at h
    | some pr =>
      obtain ⟨l, memo2⟩ := pr
      rw [computeAllLevels, hc] at h
      obtain ⟨hs1, hl1, hn1⟩ := compute_node_level_submap g fuel n memo l memo2 hc
      have hcong := lookupD_dictSet_self memo2 n l hl1
      obtain ⟨hs2, hmem, hn2⟩ := ih (dictSet memo2 n l) L h
      have hs12 : submap memo (dictSet memo2 n l) := fun k v hv => by
        rw [hcong k]; exact hs1 k v hv
      refine ⟨submap_trans hs12 hs2, ?_,
        fun hn => hn2 (keysNodup_dictSet _ _ _ (hn1 hn))⟩
      intro k hk
      rcases List.mem_cons.mp hk with hk | hk
      · have hset : lookupD (dictSet memo2 n l) n = some l := by
          rw [hcong n]; exact hl1
        rw [hk, hs2 n l hset]
        rfl
      · exact hmem k hk

theorem computeAllLevels_coherent (g : Graph) (r : Node → Nat)
    (RB : RankedBy g r) (fuel : Nat) :
    ∀ ks memo L, computeAllLevels g fuel ks memo = some L →
      coherent g memo → coherent g L := by
  intro ks
  induction ks with
  | nil =>
    intro memo L h hcoh
    simp [computeAllLevels] at h
    rw [← h]
    exact hcoh
  | cons n rest ih =>
    intro memo L h hcoh
    cases hc : compute_node_level g fuel n memo with
    | none => rw [computeAllLevels, hc] at h; simp at h
    | some pr =>
      obtain ⟨l, memo2⟩ := pr
      rw [computeAllLevels, hc] at h
      obtain ⟨hcoh2, _⟩ := compute_node_level_coherent g r RB fuel n memo l memo2 hc hcoh
      obtain ⟨_, hl1, _⟩ := compute_node_level_submap g fuel n memo l memo2 hc
      exact ih (dictSet memo2 n l) L h
        (coherent_congr g memo2 _
          (fun x => (lookupD_dictSet_self memo2 n l hl1 x).symm) hcoh2)

theorem stable_core (pl : Pipeline) (fuel : Nat) (L : Memo)
    (hall : computeAllLevels pl.pre_graph fuel (keysD pl.pre_graph) [] = some L) :
    ∀ fuel2, ({ pl with node_levels := some L } : Pipeline).compute_node_levels fuel2
      = some (L, { pl with node_levels := some L }) := by
  intro fuel2
  by_cases hLe : L.isEmpty = true
  · have hLnil : L = [] := List.isEmpty_iff.mp hLe
    obtain ⟨_, hmem, _⟩ :=
      computeAllLevels_sound pl.pre_graph fuel (keysD pl.pre_graph) [] L hall
    have hkeys : keysD pl.pre_graph = [] := by
      cases hk : keysD pl.pre_graph with
      | nil => rfl
      | cons a rest =>
        have hcontra := hmem a (by rw [hk]; exact List.mem_cons_self _ _)
        rw [hLnil] at hcontra
        simp [lookupD] at hcontra
    unfold Pipeline.compute_node_levels
    rw [show truthyCache (({ pl with node_levels := some L } : Pipeline).node_levels)
          = none by simp [truthyCache, hLe]]
    show (match computeAllLevels pl.pre_graph fuel2 (keysD pl.pre_graph) [] with
          | none => none
          | some result =>
              some (result, { pl with node_levels := some result })) = _
    rw [hkeys, hLnil]
    rfl
  · unfold Pipeline.compute_node_levels
    rw [show truthyCache (({ pl with node_levels := some L } : Pipeline).node_levels)
          = some L by simp [truthyCache, hLe]]

theorem compute_node_levels_recompute (pl : Pipeline) (fuel : Nat) (L : Memo)
    (pl2 : Pipeline) (hc : pl.node_levels = none)
    (h : pl.compute_node_levels fuel = some (L, pl2)) :
    computeAllLevels pl.pre_graph fuel (keysD pl.pre_graph) [] = some L ∧
    pl2 = { pl with node_levels := some L } := by
  unfold Pipeline.compute_node_levels at h
  rw [hc] at h
  cases hall : computeAllLevels pl.pre_graph fuel (keysD pl.pre_graph) [] with
  | none => rw [show truthyCache (none : Option Memo) = none from rfl, hall] at h; simp at h
  | some res =>
    rw [show truthyCache (none : Option Memo) = none from rfl, hall] at h
    simp at h
    obtain ⟨h1, h2⟩ := h
    subst h1
    exact ⟨rfl, h2.symm⟩

theorem compute_node_levels_stable (pl : Pipeline) (fuel : Nat) (L : Memo)
    (pl2 : Pipeline) (h : pl.compute_node_levels fuel = some (L, pl2)) :
    ∀ fuel2, pl2.compute_node_levels fuel2 = some (L, pl2) := by
  intro fuel2
  cases hnl : pl.node_levels with
  | none =>
    obtain ⟨hall, h2⟩ := compute_node_levels_recompute pl fuel L pl2 hnl h
    rw [h2]
    exact stable_core pl fuel L hall fuel2
  | some d0 =>
    unfold Pipeline.compute_node_levels at h
    rw [hnl] at h
    by_cases hd0 : d0.isEmpty = true
    · rw [show truthyCache (some d0) = none by simp [truthyCache, hd0]] at h
      cases hall : computeAllLevels pl.pre_graph fuel (keysD pl.pre_graph) [] with
      | none => rw [hall] at h; simp at h
      | some res =>
        rw [hall] at h
        simp at h
        obtain ⟨h1, h2⟩ := h
        subst h1
        rw [← h2]
        exact stable_core pl fuel res hall fuel2
    · rw [show truthyCache (some d0) = some d0 by simp [truthyCache, hd0]] at h
      simp at h
      obtain ⟨h1, h2⟩ := h
      unfold Pipeline.compute_node_levels
      rw [← h2, hnl,
        show truthyCache (some d0) = some d0 by simp [truthyCache, hd0], h1]

/-- C1: for an acyclic pipeline (with freshly invalidated caches, the
state after any graph mutation), a successful run of
`compute_node_levels` assigns every added node a level satisfying the
longest-path recurrence — `0` for a node without predecessors, otherwise
one plus the maximum of its predecessors' levels — and consequently the
level of a node exceeds each predecessor's level by at least one, with
equality for at least one predecessor.  Success of the fueled run is the
shallow embedding of termination, which the claim's acyclicity
assumption exists to guarantee. -/
theorem c1_level_recurrence (pl : Pipeline) (fuel : Nat) (L : Memo) (pl2 : Pipeline)
    (n : Node) (preds : List Node)
    (hacy : Acyclic pl) (hcache : pl.node_levels = none)
    (hrun : pl.compute_node_levels fuel = some (L, pl2))
    (hpre : lookupD pl.pre_graph n = some preds) :
    levelRecurrence L n preds := by
  obtain ⟨r, RB⟩ := hacy
  obtain ⟨hall, _⟩ := compute_node_levels_recompute pl fuel L pl2 hcache hrun
  obtain ⟨_, hmem, _⟩ :=
    computeAllLevels_sound pl.pre_graph fuel (keysD pl.pre_graph) [] L hall
  have hcoh : coherent pl.pre_graph L :=
    computeAllLevels_coherent pl.pre_graph r RB fuel (keysD pl.pre_graph) [] L hall
      (fun m lm hm => by simp [lookupD] at hm)
  have hn : n ∈ keysD pl.pre_graph := mem_keysD_of_lookupD _ n preds hpre
  have hsome := hmem n hn
  cases hL : lookupD L n with
  | none => rw [hL] at hsome; simp at hsome
  | some l =>
    obtain ⟨preds2, hg2, hcase⟩ := hcoh n l hL
    rw [hpre] at hg2
    injection hg2 with hg2
    subst hg2
    refine ⟨l, hL, ?_, ?_⟩
    · intro hnil
      rcases hcase with ⟨_, h0⟩ | ⟨hne, _⟩
      · exact h0
      · exact absurd hnil hne
    · intro hne
      rcases hcase with ⟨hnil2, _⟩ | ⟨_, ls, hls, hmx⟩
      · exact absurd hnil2 hne
      · refine ⟨⟨ls, hls, hmx⟩, ?_, ?_⟩
        · intro p hp
          obtain ⟨lp, hlp, hlpmem⟩ := lookupAll_mem L preds ls p hls hp
          have hle := maxAcc_le_of_mem ls 0 lp hlpmem
          exact ⟨lp, hlp, by omega⟩
        · have hlsne : ls ≠ [] := by
            cases hpreds : preds with
            | nil => exact absurd hpreds hne
            | cons q qs => rw [hpreds] at hls; exact lookupAll_ne_nil L q qs ls hls
          have hmax := maxAcc_mem ls hlsne
          obtain ⟨p, hp1, hp2⟩ := lookupAll_mem_rev L preds ls (maxAcc ls 0) hls hmax
          exact ⟨p, hp1, maxAcc ls 0, hp2, by omega⟩

theorem c1_witness :
    Acyclic dpl ∧ dpl.node_levels = none ∧
    dpl.compute_node_levels 9 = some (dLevels, dplLeveled) ∧
    lookupD dpl.pre_graph nD = some [nB, nC] ∧
    levelRecurrence dLevels nD [nB, nC] :=
  ⟨⟨fun nd => nd.id, by decide⟩, rfl, by decide, by decide,
   c1_level_recurrence dpl 9 dLevels dplLeveled nD [nB, nC]
     ⟨fun nd => nd.id, by decide⟩ rfl (by decide) (by decide)⟩

/-- C8: once `compute_node_levels` has run (successfully) on an acyclic
pipeline, running it again with no intervening `add_node`/`add_edge`
returns the identical level dict (and leaves the pipeline state
unchanged): either the truthy cache is served, or — for the empty
pipeline, whose cached empty dict is falsy — the recomputation
reproduces the same empty result. -/
theorem c8_compute_levels_idempotent (pl : Pipeline) (fuel : Nat) (L : Memo)
    (pl2 : Pipeline) (_hacy : Acyclic pl)
    (h : pl.compute_node_levels fuel = some (L, pl2)) (fuel2 : Nat) :
    pl2.compute_node_levels fuel2 = some (L, pl2) :=
  compute_node_levels_stable pl fuel L pl2 h fuel2

theorem c8_witness :
    Acyclic dpl ∧ dpl.compute_node_levels 9 = some (dLevels, dplLeveled) ∧
    dplLeveled.compute_node_levels 3 = some (dLevels, dplLeveled) :=
  ⟨⟨fun nd => nd.id, by decide⟩, by decide,
   c8_compute_levels_idempotent dpl 9 dLevels dplLeveled
     ⟨fun nd => nd.id, by decide⟩ (by decide) 3⟩

theorem countOcc_append (n : Node) (l1 l2 : List Node) :
    countOcc n (l1 ++ l2) = countOcc n l1 + countOcc n l2 := by
  induction l1 with
  | nil => simp [countOcc]
  | cons x rest ih => simp [countOcc, ih]; omega

theorem countOcc_eq_zero (n : Node) (l : List Node) (h : n ∉ l) :
    countOcc n l = 0 := by
  induction l with
  | nil => rfl
  | cons x rest ih =>
    have hx : x ≠ n := fun he => h (he ▸ List.mem_cons_self x rest)
    rw [countOcc, if_neg hx, ih (fun hm => h (List.mem_cons_of_mem x hm))]

theorem countOcc_nodup (n : Node) (l : List Node) (h : l.Nodup) :
    countOcc n l = if n ∈ l then 1 else 0 := by
  induction l with
  | nil => simp [countOcc]
  | cons x rest ih =>
    obtain ⟨hx, hrest⟩ := List.nodup_cons.mp h
    by_cases he : x = n
    · rw [countOcc, if_pos he, ih hrest,
        if_neg (show n ∉ rest from he ▸ hx), if_pos (he ▸ List.mem_cons_self x rest)]
    · rw [countOcc, if_neg he, ih hrest]
      by_cases hn : n ∈ rest
      · rw [if_pos hn, if_pos (List.mem_cons_of_mem x hn)]
      · have hn2 : n ∉ x :: rest := by
          intro hmem
          rcases List.mem_cons.mp hmem with hmem | hmem
          · exact he hmem.symm
          · exact hn hmem
        rw [if_neg hn, if_neg hn2]

theorem totalCount_cons (b : List Node) (bs : List (List Node)) (n : Node) :
    totalCount (b :: bs) n = countOcc n b + totalCount bs n := by
  simp [totalCount]

theorem totalCount_replicate (k : Nat) (n : Node) :
    totalCount (List.replicate k []) n = 0 := by
  induction k with
  | zero => rfl
  | succ k ih =>
    rw [List.replicate_succ, totalCount_cons, ih, countOcc]

theorem length_bucketsAppend (B : List (List Node)) (j : Nat) (m : Node) :
    (bucketsAppend B j m).length = B.length := by
  induction B generalizing j with
  | nil => rfl
  | cons b bs ih =>
    cases j with
    | zero => rfl
    | succ j => simp [bucketsAppend, ih]

theorem bucketsAppend_oob (B : List (List Node)) (j : Nat) (m : Node)
    (h : B.length ≤ j) : bucketsAppend B j m = B := by
  induction B generalizing j with
  | nil => rfl
  | cons b bs ih =>
    cases j with
    | zero => simp at h
    | succ j =>
      rw [bucketsAppend, ih j (by simpa using h)]

theorem bucketGet_bucketsAppend_eq (B : List (List Node)) (j : Nat) (m : Node)
    (h : j < B.length) :
    bucketGet (bucketsAppend B j m) j = bucketGet B j ++ [m] := by
  induction B generalizing j with
  | nil => simp at h
  | cons b bs ih =>
    cases j with
    | zero => rfl
    | succ j => exact ih j (by simpa using h)

theorem bucketGet_bucketsAppend_ne (B : List (List Node)) (j i : Nat) (m : Node)
    (h : j ≠ i) :
    bucketGet (bucketsAppend B j m) i = bucketGet B i := by
  induction B generalizing i j with
  | nil => rfl
  | cons b bs ih =>
    cases j with
    | zero =>
      cases i with
      | zero => exact absurd rfl h
      | succ i => rfl
    | succ j =>
      cases i with
      | zero => rfl
      | succ i => exact ih j i (fun he => h (by rw [he]))

theorem totalCount_bucketsAppend (B : List (List Node)) (j : Nat) (m n : Node)
    (h : j < B.length) :
    totalCount (bucketsAppend B j m) n
      = totalCount B n + (if m = n then 1 else 0) := by
  induction B generalizing j with
  | nil => simp at h
  | cons b bs ih =>
    cases j with
    | zero =>
      rw [bucketsAppend, totalCount_cons, totalCount_cons, countOcc_append]
      have hone : countOcc n [m] = if m = n then 1 else 0 := by
        by_cases hmn : m = n <;> simp [countOcc, hmn]
      rw [hone]
      omega
    | succ j =>
      rw [bucketsAppend, totalCount_cons, totalCount_cons, ih j (by simpa using h)]
      omega

theorem totalCount_fill (L : Memo) :
    ∀ (B : List (List Node)) (n : Node), (∀ e ∈ L, e.2 < B.length) →
      totalCount (fillBuckets L B) n = totalCount B n + countOcc n (keysD L) := by
  induction L with
  | nil => intro B n _; simp [fillBuckets, countOcc, keysD]
  | cons e rest ih =>
    obtain ⟨m, l⟩ := e
    intro B n hrange
    have hl : l < B.length := hrange (m, l) (List.mem_cons_self _ _)
    have hrest : ∀ e ∈ rest, e.2 < (bucketsAppend B l m).length := by
      intro e he
      rw [length_bucketsAppend]
      exact hrange e (List.mem_cons_of_mem _ he)
    rw [fillBuckets, ih (bucketsAppend B l m) n hrest,
      totalCount_bucketsAppend B l m n hl]
    have hkeys : countOcc n (keysD ((m, l) :: rest))
        = (if m = n then 1 else 0) + countOcc n (keysD rest) := by
      rfl
    rw [hkeys]
    omega

theorem length_fill (L : Memo) :
    ∀ B : List (List Node), (fillBuckets L B).length = B.length := by
  induction L with
  | nil => intro B; rfl
  | cons e rest ih =>
    obtain ⟨m, l⟩ := e
    intro B
    rw [fillBuckets, ih, length_bucketsAppend]

theorem bucketGet_replicate : ∀ (k i : Nat),
    bucketGet (List.replicate k ([] : List Node)) i = [] := by
  intro k
  induction k with
  | zero => intro i; cases i <;> rfl
  | succ k ih =>
    intro i
    cases i with
    | zero => rfl
    | succ i => exact ih i

theorem mem_fill : ∀ (L : Memo) (B : List (List Node)) (n : Node) (i : Nat),
    n ∈ bucketGet (fillBuckets L B) i ↔
      n ∈ bucketGet B i ∨ ((n, i) ∈ L ∧ i < B.length) := by
  intro L
  induction L with
  | nil => intro B n i; simp [fillBuckets]
  | cons e rest ih =>
    obtain ⟨m, l⟩ := e
    intro B n i
    rw [fillBuckets, ih, length_bucketsAppend]
    by_cases hl : l < B.length
    · by_cases hli : l = i
      · subst hli
        rw [bucketGet_bucketsAppend_eq B l m hl]
        constructor
        · rintro (hmem | ⟨hmemr, hi⟩)
          · rcases List.mem_append.mp hmem with hmem | hmem
            · exact Or.inl hmem
            · have hnm : n = m := by simpa using hmem
              exact Or.inr ⟨by rw [hnm]; exact List.mem_cons_self _ _, hl⟩
          · exact Or.inr ⟨List.mem_cons_of_mem _ hmemr, hi⟩
        · rintro (hmem | ⟨hmemL, hi⟩)
          · exact Or.inl (List.mem_append.mpr (Or.inl hmem))
          · rcases List.mem_cons.mp hmemL with he | he
            · rw [Prod.mk.injEq] at he
              exact Or.inl (List.mem_append.mpr (Or.inr (by simp [he.1])))
            · exact Or.inr ⟨he, hi⟩
      · rw [bucketGet_bucketsAppend_ne B l i m hli]
        constructor
        · rintro (hmem | ⟨hmemr, hi⟩)
          · exact Or.inl hmem
          · exact Or.inr ⟨List.mem_cons_of_mem _ hmemr, hi⟩
        · rintro (hmem | ⟨hmemL, hi⟩)
          · exact Or.inl hmem
          · rcases List.mem_cons.mp hmemL with he | he
            · rw [Prod.mk.injEq] at he
              exact absurd he.2.symm hli
            · exact Or.inr ⟨he, hi⟩
    · rw [bucketsAppend_oob B l m (Nat.le_of_not_lt hl)]
      constructor
      · rintro (hmem | ⟨hmemr, hi⟩)
        · exact Or.inl hmem
        · exact Or.inr ⟨List.mem_cons_of_mem _ hmemr, hi⟩
      · rintro (hmem | ⟨hmemL, hi⟩)
        · exact Or.inl hmem
        · rcases List.mem_cons.mp hmemL with he | he
          · rw [Prod.mk.injEq] at he
            exact absurd (he.2 ▸ hi) hl
          · exact Or.inr ⟨he, hi⟩

theorem maxLevelVal_acc_le : ∀ (L : Memo) (acc : Nat), acc ≤ maxLevelVal L acc := by
  intro L
  induction L with
  | nil => intro acc; exact le_rfl
  | cons e rest ih =>
    intro acc
    calc acc ≤ Nat.max e.2 acc := Nat.le_max_right _ _
    _ ≤ maxLevelVal rest (Nat.max e.2 acc) := ih _

theorem maxLevelVal_ge (L : Memo) : ∀ (acc : Nat), ∀ e ∈ L, e.2 ≤ maxLevelVal L acc := by
  induction L with
  | nil => intro acc e he; simp at he
  | cons f rest ih =>
    intro acc e he
    rcases List.mem_cons.mp he with he | he
    · rw [he]
      show f.2 ≤ maxLevelVal rest (Nat.max f.2 acc)
      calc f.2 ≤ Nat.max f.2 acc := Nat.le_max_left _ _
      _ ≤ maxLevelVal rest (Nat.max f.2 acc) := maxLevelVal_acc_le rest _
    · exact ih _ e he

/-- C6: on an acyclic pipeline (with freshly invalidated caches), a
successful `get_nodes_by_level` produces buckets that partition exactly
the set of added nodes — every added node occurs exactly once across all
buckets, nothing else occurs — and a node sits in bucket `i` exactly
when the level computed by `compute_node_levels` for it is `i`. -/
theorem c6_nodes_by_level_partition (pl : Pipeline) (fuel : Nat)
    (B : List (List Node)) (plB : Pipeline) (L : Memo) (pl1 : Pipeline)
    (hacy : Acyclic pl) (h1 : pl.node_levels = none) (h2 : pl.level_nodes = none)
    (hB : pl.get_nodes_by_level fuel = some (B, plB))
    (hL : pl.compute_node_levels fuel = some (L, pl1)) :
    partitionsByLevel pl.pre_graph L B := by
  obtain ⟨r, RB⟩ := hacy
  unfold Pipeline.get_nodes_by_level at hB
  rw [h2,
    show truthyCache (none : Option (List (List Node))) = none from rfl, hL] at hB
  have hstable := compute_node_levels_stable pl fuel L pl1 hL fuel
  have hmax : pl1.compute_max_level fuel = some (maxLevelVal L 0, pl1) := by
    unfold Pipeline.compute_max_level
    rw [hstable]
  simp only [] at hB
  rw [hmax] at hB
  simp at hB
  obtain ⟨hBdef, _⟩ := hB
  obtain ⟨hall, _⟩ := compute_node_levels_recompute pl fuel L pl1 h1 hL
  obtain ⟨_, hmem, hnodup⟩ :=
    computeAllLevels_sound pl.pre_graph fuel (keysD pl.pre_graph) [] L hall
  have hnodupL : keysNodup L := hnodup (by simp [keysNodup, keysD])
  have hcoh : coherent pl.pre_graph L :=
    computeAllLevels_coherent pl.pre_graph r RB fuel (keysD pl.pre_graph) [] L hall
      (fun m lm hm => by simp [lookupD] at hm)
  have hkeysiff : ∀ n, n ∈ keysD L ↔ n ∈ keysD pl.pre_graph := by
    intro n
    constructor
    · intro hn
      have hs := lookupD_isSome_of_mem L n hn
      cases hLn : lookupD L n with
      | none => rw [hLn] at hs; simp at hs
      | some l =>
        obtain ⟨preds, hg, _⟩ := hcoh n l hLn
        exact mem_keysD_of_lookupD _ n preds hg
    · intro hn
      have hs := hmem n hn
      cases hLn : lookupD L n with
      | none => rw [hLn] at hs; simp at hs
      | some l => exact mem_keysD_of_lookupD L n l hLn
  have hrange : ∀ e ∈ L,
      e.2 < (List.replicate (maxLevelVal L 0 + 1) ([] : List Node)).length := by
    intro e he
    rw [List.length_replicate]
    have := maxLevelVal_ge L 0 e he
    omega
  constructor
  · intro n
    rw [← hBdef, totalCount_fill L _ n hrange, totalCount_replicate,
      countOcc_nodup n (keysD L) hnodupL, Nat.zero_add]
    exact if_congr (hkeysiff n) rfl rfl
  · intro n i
    rw [← hBdef, mem_fill, bucketGet_replicate]
    constructor
    · rintro (hmem2 | ⟨hmemL, _⟩)
      · simp at hmem2
      · exact lookupD_of_mem_nodup L n i hnodupL hmemL
    · intro hlook
      refine Or.inr ⟨lookupD_mem_pair L n i hlook, ?_⟩
      rw [List.length_replicate]
      have := maxLevelVal_ge L 0 (n, i) (lookupD_mem_pair L n i hlook)
      simp at this
      omega

theorem c6_witness :
    (Acyclic dpl ∧ dpl.node_levels = none ∧ dpl.level_nodes = none ∧
     dpl.get_nodes_by_level 9 = some (dBuckets, dplFinal) ∧
     dpl.compute_node_levels 9 = some (dLevels, dplLeveled)) ∧
    partitionsByLevel dpl.pre_graph dLevels dBuckets :=
  ⟨⟨⟨fun nd => nd.id, by decide⟩, rfl, rfl, by decide, by decide⟩,
   c6_nodes_by_level_partition dpl 9 dBuckets dplFinal dLevels dplLeveled
     ⟨fun nd => nd.id, by decide⟩ rfl rfl (by decide) (by decide)⟩

/-- C2 counterexample: the claim says a clone keeps the identity and the
name of the original and is therefore graph-equal to it.  In the code,
`clone()` calls the constructor, which allocates a fresh `uuid4`
identity; at the concrete node `eA` (id `0`) the clone (fresh id `1` —
`uuid4` never reproduces an existing identifier) has a different id, so
it is not graph-equal to the original. -/
theorem c2_clone_counterexample :
    (eA.clone 1).node.id ≠ eA.node.id ∧ ¬((eA.clone 1).node = eA.node) := by
  decide

/-- C2 (amended): a clone keeps the original's name (and, for
`EstimatorNode`, an independent copy of the estimator's parameters) but
receives a freshly generated identity; since `Node.__eq__` requires
identical identities, a clone is never graph-equal to its original. -/
theorem c2_clone_fresh_identity (e : EstimatorNode) (a : AndNode) (f g : Nat)
    (hf : f ≠ e.node.id) (hg : g ≠ a.node.id) :
    (e.clone f).node.name = e.node.name ∧ (e.clone f).node ≠ e.node ∧
    (a.clone g).node.name = a.node.name ∧ (a.clone g).node ≠ a.node := by
  refine ⟨rfl, fun h => hf ?_, rfl, fun h => hg ?_⟩
  · exact congrArg Node.id h
  · exact congrArg Node.id h

theorem c2_witness :
    (7 ≠ eA.node.id ∧ 9 ≠ aD.node.id) ∧
    ((eA.clone 7).node.name = eA.node.name ∧ (eA.clone 7).node ≠ eA.node ∧
     (aD.clone 9).node.name = aD.node.name ∧ (aD.clone 9).node ≠ aD.node) :=
  ⟨⟨by decide, by decide⟩,
   c2_clone_fresh_identity eA aD 7 9 (by decide) (by decide)⟩

/-- C3 counterexample: the claim says construction with a capability
lacking the required contract raises at construction time.  In the code
neither `EstimatorNode.__init__` nor `AndNode.__init__` inspects the
capability at all, so construction with `badCap` (which satisfies
neither contract) succeeds. -/
theorem c3_construction_counterexample :
    hasFitTransformContract badCap = false ∧
    (EstimatorNode.make "bad" badCap 7).isOk = true ∧
    hasMultiTransformContract badCap = false ∧
    (AndNode.make "bad" badCap 8).isOk = true := by
  decide

/-- C3 (amended): construction performs no validation of the capability
object: constructing an `EstimatorNode` or an `AndNode` always succeeds,
whatever capability is supplied, so a missing transform contract can
only surface later, at execution time. -/
theorem c3_construction_never_fails (node_name : String) (c : Capability)
    (freshId : Nat) :
    (EstimatorNode.make node_name c freshId).isOk = true ∧
    (AndNode.make node_name c freshId).isOk = true :=
  ⟨rfl, rfl⟩

/-- C4 counterexample: the claim says `add_node` on an existing node
leaves the level caches unchanged.  `onePl` is the pipeline reached by
adding node `A` and computing levels (so `__node_levels__` is the truthy
dict `{A: 0}`); `add_node(A)` finds `A` already a key, yet resets
`__node_levels__` to `None`, changing the cache. -/
theorem c4_add_node_counterexample :
    (Pipeline.init.add_node nA).compute_node_levels 5 = some ([(nA, 0)], onePl) ∧
    containsKey onePl.pre_graph nA = true ∧
    onePl.node_levels = some [(nA, 0)] ∧
    (onePl.add_node nA).node_levels = none := by
  decide

/-- C4 (amended): `add_node` on a node that is already a key leaves both
adjacency dicts unchanged, but unconditionally invalidates both level
caches (they are reset to `None` before the membership test). -/
theorem c4_add_node_existing (pl : Pipeline) (n : Node)
    (h : containsKey pl.pre_graph n = true) :
    (pl.add_node n).pre_graph = pl.pre_graph ∧
    (pl.add_node n).post_graph = pl.post_graph ∧
    (pl.add_node n).node_levels = none ∧
    (pl.add_node n).level_nodes = none := by
  simp [Pipeline.add_node, h]

theorem c4_witness :
    containsKey onePl.pre_graph nA = true ∧
    ((onePl.add_node nA).pre_graph = onePl.pre_graph ∧
     (onePl.add_node nA).post_graph = onePl.post_graph ∧
     (onePl.add_node nA).node_levels = none ∧
     (onePl.add_node nA).level_nodes = none) :=
  ⟨by decide, c4_add_node_existing onePl nA (by decide)⟩

/-- C5: for every node present in the pipeline, `get_post_edges` returns
a non-empty list (a one-element sentinel when there are no successors),
so `is_terminal`, which tests that list for emptiness, returns `False`
for every added node. -/
theorem c5_is_terminal_always_false (pl : Pipeline) (n : Node)
    (post : List Node) (h : lookupD pl.post_graph n = some post) :
    (pl.get_post_edges n).isSome = true ∧
    (∀ es, pl.get_post_edges n = some es → es ≠ []) ∧
    pl.is_terminal n = some false := by
  cases post with
  | nil => simp [Pipeline.get_post_edges, Pipeline.is_terminal, h]
  | cons q rest =>
    refine ⟨by simp [Pipeline.get_post_edges, h], ?_, ?_⟩
    · intro es hes
      simp [Pipeline.get_post_edges, h] at hes
      simp [← hes]
    · simp [Pipeline.get_post_edges, Pipeline.is_terminal, h]

theorem c5_witness :
    lookupD dpl.post_graph nD = some [] ∧
    ((dpl.get_post_edges nD).isSome = true ∧
     (∀ es, dpl.get_post_edges nD = some es → es ≠ []) ∧
     dpl.is_terminal nD = some false) :=
  ⟨by decide, c5_is_terminal_always_false dpl nD [] (by decide)⟩

/-- C7: `get_pre_edges` materializes exactly one sentinel edge
`Edge(None, n)` when the predecessor list is empty and otherwise exactly
one `Edge(p, n)` per predecessor in list order; `get_post_edges` on a
node without successors returns exactly the sentinel `Edge(n, None)`. -/
theorem c7_edge_materialization (pl : Pipeline) (n : Node) :
    (∀ preds, lookupD pl.pre_graph n = some preds →
      pl.get_pre_edges n = some
        (if preds = [] then [{ from_node := none, to_node := some n }]
         else preds.map (fun p => { from_node := some p, to_node := some n }))) ∧
    (lookupD pl.post_graph n = some [] →
      pl.get_post_edges n = some [{ from_node := some n, to_node := none }]) := by
  constructor
  · intro preds h
    cases preds with
    | nil => simp [Pipeline.get_pre_edges, h]
    | cons p rest => simp [Pipeline.get_pre_edges, h]
  · intro h
    simp [Pipeline.get_post_edges, h]

theorem c7_witness :
    (lookupD dpl.pre_graph nA = some [] ∧
     lookupD dpl.pre_graph nD = some [nB, nC] ∧
     lookupD dpl.post_graph nD = some []) ∧
    dpl.get_pre_edges nA = some [{ from_node := none, to_node := some nA }] ∧
    dpl.get_pre_edges nD = some [{ from_node := some nB, to_node := some nD },
                                 { from_node := some nC, to_node := some nD }] ∧
    dpl.get_post_edges nD = some [{ from_node := some nD, to_node := none }] := by
  refine ⟨⟨by decide, by decide, by decide⟩, ?_, ?_, ?_⟩
  · have h := (c7_edge_materialization dpl nA).1 [] (by decide)
    simpa using h
  · have h := (c7_edge_materialization dpl nD).1 [nB, nC] (by decide)
    simpa using h
  · exact (c7_edge_materialization dpl nD).2 (by decide)

/-- C10: on a freshly constructed pipeline with no nodes,
`compute_max_level` returns `0` (the `max` fold starts from `0` over an
empty level dict) and `get_nodes_by_level` therefore returns exactly one
bucket, which is empty. -/
theorem c10_empty_pipeline (fuel : Nat) :
    (Pipeline.init.compute_max_level fuel).map Prod.fst = some 0 ∧
    (Pipeline.init.get_nodes_by_level fuel).map Prod.fst = some [[]] :=
  ⟨rfl, rfl⟩

end Datamodel
